import Mathlib

/-! Formal model of the retrieval and chunking engine of the audit-assistant
chatbot repository (src/vectordb.py): document chunking, deterministic chunk
ids, idempotent upsert ingestion, and similarity search.  Text is modelled as
a list of characters; external collaborators (the langchain text splitter, the
chromadb collection, the md5 hash) are modelled from the specification, as
noted on each definition. -/

/-- Text (Python str) is modelled as a list of characters. -/
abbrev Str := List Char

/-- Metadata dictionaries are modelled as string-keyed association lists. -/
abbrev Meta := List (Str × Str)

/-- Python dict.get with a default value, over the association-list model. -/
def metaGet : Meta → Str → Str → Str
  | [], _, d => d
  | kv :: rest, key, d => if kv.1 = key then kv.2 else metaGet rest key d

/-- A document handed to add_documents.  Python reads doc['content'] (a
KeyError when the key is missing, modelled by none) and
doc.get('metadata', {}) (total). -/
structure Doc where
  content : Option Str
  metadata : Meta
deriving DecidableEq

/-- A persisted index record: (id, text, metadata) as stored in the chroma
collection.  The embedding vector is opaque and never inspected by the core,
so it is not carried in the record. -/
structure Entry where
  id : Str
  text : Str
  meta : Meta
deriving DecidableEq

/-- The chroma collection state: records in insertion order. -/
abbrev Collection := List Entry

/-- The id projection of a collection. -/
def ids (col : Collection) : List Str := col.map (fun e => e.id)

/-- VectorDB.__init__ stores chunk_size and chunk_overlap.  The chroma client
and embedding model are external resources and carry no core state. -/
structure VectorDB where
  chunk_size : Nat
  chunk_overlap : Nat
deriving DecidableEq

/-- VectorDB.__init__: stores the configuration exactly as given; the source
performs no validation of the chunk_size / chunk_overlap relationship. -/
def VectorDB.init (chunk_size : Nat) (chunk_overlap : Nat) : VectorDB :=
  ⟨chunk_size, chunk_overlap⟩

/-- Boolean test that sep is a leading segment of text (Python startswith). -/
def leadsWith : Str → Str → Bool
  | [], _ => true
  | _ :: _, [] => false
  | a :: as, b :: bs => a == b && leadsWith as bs

/-- Boolean test that sep occurs inside text (Python `sep in text`). -/
def containsSub (sep : Str) : Str → Bool
  | [] => sep.isEmpty
  | c :: rest => leadsWith sep (c :: rest) || containsSub sep rest

/-- Modelled from the spec: splitting on a nonempty separator, keeping the
separator attached to the start of the following piece (the spec requires
separators preserved in the emitted text, not stripped).  Returns the first
piece and the list of later pieces. -/
def skAux (sep : Str) : Str → Str × List Str
  | [] => ([], [])
  | c :: rest =>
    if sep ≠ [] ∧ leadsWith sep (c :: rest) = true then
      let pr := skAux sep (List.drop (sep.length - 1) rest)
      ([], (sep ++ pr.1) :: pr.2)
    else
      let pr := skAux sep rest
      (c :: pr.1, pr.2)
termination_by t => t.length
decreasing_by
  · simp only [List.length_drop, List.length_cons]; omega
  · simp only [List.length_cons]; omega

/-- Modelled from the spec: split text on a separator, keeping separators;
the empty separator splits into single characters. -/
def splitKeep (sep : Str) (text : Str) : List Str :=
  if sep = [] then text.map (fun c => [c])
  else (skAux sep text).1 :: (skAux sep text).2

/-- Total length of a list of pieces. -/
def totalLen (l : List Str) : Nat := (l.map List.length).sum

/-- Modelled from the spec: after a chunk is emitted, the overlap is taken
from the tail of the previous chunk — pieces are dropped from the front
while their total length still exceeds chunk_overlap. -/
def shrinkTo (ov : Nat) : List Str → List Str
  | [] => []
  | p :: ps => if ov < totalLen (p :: ps) then shrinkTo ov ps else p :: ps

/-- Modelled from the spec: greedy merge of split pieces into chunks bounded
by chunk_size; cur is the pieces of the chunk being built and curLen their
total length.  When the next piece would overflow, the current chunk is
emitted and the retained overlap tail starts the next chunk. -/
def mergeGo (size ov : Nat) : List Str → List Str → Nat → List Str
  | [], cur, _ => if cur = [] then [] else [cur.flatten]
  | p :: ps, cur, curLen =>
    if cur ≠ [] ∧ size < curLen + p.length then
      cur.flatten ::
        (let cur' := shrinkTo ov cur ++ [p]
         mergeGo size ov ps cur' (totalLen cur'))
    else mergeGo size ov ps (cur ++ [p]) (curLen + p.length)

/-- Modelled from the spec: merge split pieces into bounded overlapping
chunks. -/
def mergeSplits (size ov : Nat) (pieces : List Str) : List Str :=
  mergeGo size ov pieces [] 0

/-- Modelled from the spec: walk the pieces of one separator level; pieces
small enough are accumulated and merged, a piece still too large is split
recursively with the remaining separators (sub), or emitted as-is when no
separator remains. -/
def goPieces (size ov : Nat) (sub : Str → List Str) (hasSub : Bool) :
    List Str → List Str → List Str
  | [], good => mergeSplits size ov good
  | p :: ps, good =>
    if p.length ≤ size then goPieces size ov sub hasSub ps (good ++ [p])
    else
      mergeSplits size ov good ++ (if hasSub then sub p else [p]) ++
        goPieces size ov sub hasSub ps []

/-- Modelled from the spec: recursive splitting — the first separator in the
priority list that occurs in the text is used, pieces still too large are
recursively split with the remaining separators; the empty separator splits
into single characters and ends the recursion. -/
def splitTextRec (size ov : Nat) : List Str → Str → List Str
  | [], text =>
    goPieces size ov (fun _ => []) false
      ((splitKeep [] text).filter (fun p => !p.isEmpty)) []
  | s :: rest, text =>
    if s = [] then
      goPieces size ov (fun _ => []) false
        ((splitKeep [] text).filter (fun p => !p.isEmpty)) []
    else if containsSub s text then
      goPieces size ov (fun t => splitTextRec size ov rest t) true
        ((splitKeep s text).filter (fun p => !p.isEmpty)) []
    else splitTextRec size ov rest text

/-- The separator priority list passed by VectorDB.chunk_text:
double newline, newline, period, space, empty string. -/
def SEPS : List Str := [['\n', '\n'], ['\n'], ['.'], [' '], []]

/-- VectorDB.chunk_text: split text into chunks of at most chunk_size
characters with chunk_overlap overlap, using the separator priority list.
The splitting algorithm itself lives in the external langchain
RecursiveCharacterTextSplitter and is modelled from the spec. -/
def chunkText (db : VectorDB) (text : Str) : List Str :=
  splitTextRec db.chunk_size db.chunk_overlap SEPS text

/-- Decimal digit character, as produced by Python str() for one digit. -/
def digitChar : Nat → Char
  | 0 => '0' | 1 => '1' | 2 => '2' | 3 => '3' | 4 => '4'
  | 5 => '5' | 6 => '6' | 7 => '7' | 8 => '8' | _ => '9'

/-- Value of a decimal digit character. -/
def digitVal : Char → Nat
  | '0' => 0 | '1' => 1 | '2' => 2 | '3' => 3 | '4' => 4
  | '5' => 5 | '6' => 6 | '7' => 7 | '8' => 8 | _ => 9

/-- Digits of a positive number, most significant first (empty for 0). -/
def decAux (n : Nat) : List Char :=
  if n = 0 then [] else decAux (n / 10) ++ [digitChar (n % 10)]
termination_by n
decreasing_by
  exact Nat.div_lt_self (Nat.pos_of_ne_zero (by assumption)) (by decide)

/-- Decimal representation of a natural number (Python str(n) / f-string). -/
def decChars (n : Nat) : List Char :=
  if n = 0 then ['0'] else decAux n

/-- The metadata key consulted for the source filename. -/
def fnKey : Str := ['f', 'i', 'l', 'e', 'n', 'a', 'm', 'e']

/-- The deterministic chunk id built in VectorDB.add_documents:
filename, chunk ordinal, chunk length and content hash joined by dashes.
The hash (hashlib.md5 hexdigest) is external and passed in as md5hex. -/
def mkId (md5hex : Str → Str) (filename : Str) (i : Nat) (chunk : Str) : Str :=
  filename ++ '-' :: (decChars i ++ '-' :: (decChars chunk.length ++ '-' :: md5hex chunk))

/-- The records one document contributes in VectorDB.add_documents: its
content is chunked and each chunk paired with the shared metadata and its
deterministic id.  A missing content key is the Python KeyError. -/
def docRecords (db : VectorDB) (md5hex : Str → Str) (d : Doc) :
    Except Unit (List Entry) :=
  match d.content with
  | none => Except.error ()
  | some content =>
    Except.ok (((chunkText db content).enum).map
      (fun ic => ⟨mkId md5hex (metaGet d.metadata fnKey []) ic.1 ic.2, ic.2, d.metadata⟩))

/-- The record-building loop of VectorDB.add_documents over the whole batch:
documents are processed in order and the first KeyError aborts the call. -/
def collectRecords (db : VectorDB) (md5hex : Str → Str) :
    List Doc → Except Unit (List Entry)
  | [] => Except.ok []
  | d :: ds =>
    match docRecords db md5hex d with
    | Except.error e => Except.error e
    | Except.ok rs =>
      match collectRecords db md5hex ds with
      | Except.error e => Except.error e
      | Except.ok rest => Except.ok (rs ++ rest)

/-- Modelled from the spec: the chroma collection upsert of one record —
when the id already exists its record is replaced in place, otherwise the
record is appended. -/
def upsertOne (col : Collection) (r : Entry) : Collection :=
  if r.id ∈ ids col then col.map (fun e => if e.id = r.id then r else e)
  else col ++ [r]

/-- Modelled from the spec: the batched collection upsert used by
VectorDB.add_documents. -/
def upsertBatch (col : Collection) (recs : List Entry) : Collection :=
  recs.foldl upsertOne col

/-- VectorDB.add_documents: chunk every document, derive ids, and submit one
batched upsert; nothing is written when no chunk was produced (the source
guards with `if all_chunks:`). -/
def add_documents (db : VectorDB) (md5hex : Str → Str) (col : Collection)
    (docs : List Doc) : Except Unit Collection :=
  match collectRecords db md5hex docs with
  | Except.error e => Except.error e
  | Except.ok recs => Except.ok (if recs = [] then col else upsertBatch col recs)

/-- The collection state observed after calling add_documents: a raised
error leaves the collection unchanged, since the source writes only after
the record-building loop finished. -/
def addState (db : VectorDB) (md5hex : Str → Str) (col : Collection)
    (docs : List Doc) : Collection :=
  match add_documents db md5hex col docs with
  | Except.ok c => c
  | Except.error _ => col

/-- Distance ordering on records relative to a query, induced by the opaque
embedding-and-cosine-distance function dist. -/
abbrev entryLE (dist : Str → Str → Rat) (q : Str) (a b : Entry) : Prop :=
  dist q a.text ≤ dist q b.text

instance (dist : Str → Str → Rat) (q : Str) : IsTotal Entry (entryLE dist q) :=
  ⟨fun _ _ => le_total _ _⟩

instance (dist : Str → Str → Rat) (q : Str) : IsTrans Entry (entryLE dist q) :=
  ⟨fun _ _ _ hab hbc => le_trans hab hbc⟩

/-- Modelled from the spec: the chroma collection query — the records
nearest to the query by the shared embedding distance, in ascending
distance order, at most n_results of them. -/
def backendQuery (dist : Str → Str → Rat) (col : Collection) (q : Str)
    (n : Nat) : Collection :=
  (List.insertionSort (entryLE dist q) col).take n

/-- The result shape of VectorDB.search: the four parallel lists taken from
the first (and only) query of the chroma result. -/
structure SearchResult where
  documents : List Str
  metadatas : List Meta
  distances : List Rat
  ids : List Str
deriving DecidableEq

/-- VectorDB.search: query the collection with the raw query text (the
source performs no validation of the query) and repackage the four parallel
result lists. -/
def search (dist : Str → Str → Rat) (col : Collection) (q : Str)
    (n : Nat) : SearchResult :=
  let top := backendQuery dist col q n
  ⟨top.map (fun e => e.text), top.map (fun e => e.meta),
   top.map (fun e => dist q e.text), top.map (fun e => e.id)⟩

/-- Filename of the spec's example scenario (x.txt). -/
def xFile : Str := ['x', '.', 't', 'x', 't']

/-- The document of the spec's example scenario: content "A" repeated 1000
times with metadata filename x.txt. -/
def sampleDoc : Doc := ⟨some (List.replicate 1000 'A'), [(fnKey, xFile)]⟩

/-- A concrete index record used to instantiate the search theorems. -/
def sampleEntry : Entry := ⟨['i', '1'], ['d', 'o', 'c'], []⟩

/-- A concrete stand-in for the opaque embedding distance. -/
def sampleDist : Str → Str → Rat := fun _ _ => 0

/-! Utility lemmas about piece lists. -/

theorem totalLen_nil : totalLen [] = 0 := rfl

theorem totalLen_cons (p : Str) (l : List Str) :
    totalLen (p :: l) = p.length + totalLen l := by
  simp [totalLen]

theorem totalLen_append (a b : List Str) :
    totalLen (a ++ b) = totalLen a + totalLen b := by
  simp [totalLen]

theorem length_flatten_eq_totalLen (l : List Str) :
    l.flatten.length = totalLen l := by
  induction l with
  | nil => rfl
  | cons p t ih => simp [totalLen_cons, ih]

theorem length_le_totalLen (l : List Str) (p : Str) (hp : p ∈ l) :
    p.length ≤ totalLen l := by
  induction l with
  | nil => cases hp
  | cons q t ih =>
    rw [List.mem_cons] at hp
    rcases hp with h | h
    · subst h; simp [totalLen_cons]
    · exact le_trans (ih h) (by simp [totalLen_cons])

theorem flatten_filter_nonempty (l : List Str) :
    (l.filter (fun p => !p.isEmpty)).flatten = l.flatten := by
  induction l with
  | nil => rfl
  | cons p t ih =>
    cases p with
    | nil => simpa using ih
    | cons c cs => simpa using ih

theorem flatten_map_singleton (l : Str) :
    (l.map (fun c => [c])).flatten = l := by
  induction l with
  | nil => rfl
  | cons c t ih => simpa using ih

/-! Lemmas about the separator split. -/

theorem leadsWith_eq {s t : Str} (h : leadsWith s t = true) :
    s ++ List.drop s.length t = t := by
  induction s generalizing t with
  | nil => simp
  | cons a as ih =>
    cases t with
    | nil => simp [leadsWith] at h
    | cons b bs =>
      simp only [leadsWith, Bool.and_eq_true, beq_iff_eq] at h
      obtain ⟨rfl, h2⟩ := h
      simpa using ih h2

theorem skAux_flatten_aux (sep : Str) :
    ∀ (n : Nat) (text : Str), text.length ≤ n →
      (skAux sep text).1 ++ (skAux sep text).2.flatten = text := by
  intro n
  induction n with
  | zero =>
    intro text ht
    have h0 : text = [] := List.eq_nil_of_length_eq_zero (Nat.le_zero.mp ht)
    subst h0
    simp [skAux]
  | succ n ih =>
    intro text ht
    cases text with
    | nil => simp [skAux]
    | cons c rest =>
      simp only [skAux]
      by_cases h : sep ≠ [] ∧ leadsWith sep (c :: rest) = true
      · rw [if_pos h]
        obtain ⟨s0, ss, rfl⟩ : ∃ s0 ss, sep = s0 :: ss := by
          cases sep with
          | nil => exact absurd rfl h.1
          | cons s0 ss => exact ⟨s0, ss, rfl⟩
        have hdrop : (List.drop ((s0 :: ss).length - 1) rest).length ≤ n := by
          simp only [List.length_drop, List.length_cons] at *
          omega
        have hrec := ih (List.drop ((s0 :: ss).length - 1) rest) hdrop
        have hlw := leadsWith_eq h.2
        simp only [List.length_cons, Nat.add_sub_cancel, List.drop_succ_cons] at hlw hrec ⊢
        simp only [List.flatten_cons, List.nil_append, List.append_assoc, hrec]
        exact hlw
      · rw [if_neg h]
        have hrec := ih rest (by simpa using Nat.le_of_succ_le_succ (by simpa using ht))
        simpa [List.cons_append] using congrArg (fun l => c :: l) hrec

theorem skAux_flatten (sep text : Str) :
    (skAux sep text).1 ++ (skAux sep text).2.flatten = text :=
  skAux_flatten_aux sep text.length text le_rfl

theorem splitKeep_flatten (sep text : Str) :
    (splitKeep sep text).flatten = text := by
  unfold splitKeep
  by_cases h : sep = []
  · rw [if_pos h]
    exact flatten_map_singleton text
  · rw [if_neg h]
    simpa using skAux_flatten sep text

/-! Lemmas about the merge phase. -/

theorem mergeGo_all (size ov : Nat) (ps : List Str) :
    ∀ (cur : List Str) (curLen : Nat), curLen = totalLen cur →
      totalLen cur + totalLen ps ≤ size → cur ++ ps ≠ [] →
      mergeGo size ov ps cur curLen = [(cur ++ ps).flatten] := by
  induction ps with
  | nil =>
    intro cur curLen _ _ hne
    have hcur : cur ≠ [] := by simpa using hne
    simp [mergeGo, hcur]
  | cons p ps ih =>
    intro cur curLen hlen hsz _
    have hcond : ¬ (cur ≠ [] ∧ size < curLen + p.length) := by
      rintro ⟨-, hlt⟩
      rw [totalLen_cons] at hsz
      omega
    rw [mergeGo, if_neg hcond]
    have hr := ih (cur ++ [p]) (curLen + p.length)
      (by rw [totalLen_append, totalLen_cons, totalLen_nil]; omega)
      (by rw [totalLen_append, totalLen_cons, totalLen_nil]; rw [totalLen_cons] at hsz; omega)
      (by simp)
    rw [hr]
    simp

theorem mergeSplits_small (size ov : Nat) (pieces : List Str)
    (hne : pieces ≠ []) (hsz : totalLen pieces ≤ size) :
    mergeSplits size ov pieces = [pieces.flatten] := by
  unfold mergeSplits
  have := mergeGo_all size ov pieces [] 0 rfl (by simpa [totalLen_nil]) (by simpa)
  simpa using this

theorem goPieces_allgood (size ov : Nat) (sub : Str → List Str) (b : Bool)
    (ps : List Str) :
    ∀ (good : List Str), (∀ p ∈ ps, p.length ≤ size) →
      goPieces size ov sub b ps good = mergeSplits size ov (good ++ ps) := by
  induction ps with
  | nil => intro good _; simp [goPieces]
  | cons p ps ih =>
    intro good hall
    rw [goPieces, if_pos (hall p (List.mem_cons_self p ps))]
    rw [ih (good ++ [p]) (fun q hq => hall q (List.mem_cons_of_mem p hq))]
    simp

/-! The chunker on empty and on short input. -/

theorem goPieces_single (size ov : Nat) (sub : Str → List Str) (b : Bool)
    (sep text : Str) (hne : text ≠ []) (hlen : text.length ≤ size) :
    goPieces size ov sub b ((splitKeep sep text).filter (fun p => !p.isEmpty)) [] = [text] := by
  have hflat : ((splitKeep sep text).filter (fun p => !p.isEmpty)).flatten = text := by
    rw [flatten_filter_nonempty, splitKeep_flatten]
  have htot : totalLen ((splitKeep sep text).filter (fun p => !p.isEmpty)) = text.length := by
    rw [← length_flatten_eq_totalLen, hflat]
  have hall : ∀ p ∈ (splitKeep sep text).filter (fun p => !p.isEmpty), p.length ≤ size :=
    fun p hp => le_trans (le_trans (length_le_totalLen _ p hp) (le_of_eq htot)) hlen
  have hpe : (splitKeep sep text).filter (fun p => !p.isEmpty) ≠ [] := by
    intro h
    rw [h] at hflat
    exact hne hflat.symm
  rw [goPieces_allgood size ov sub b _ [] hall]
  rw [List.nil_append, mergeSplits_small size ov _ hpe (le_of_eq_of_le htot hlen), hflat]

theorem splitTextRec_empty (size ov : Nat) :
    ∀ seps : List Str, splitTextRec size ov seps [] = [] := by
  intro seps
  induction seps with
  | nil => rfl
  | cons s rest ih =>
    rw [splitTextRec]
    by_cases hs : s = []
    · rw [if_pos hs]; rfl
    · rw [if_neg hs]
      have hcs : containsSub s [] = false := by
        cases s with
        | nil => exact absurd rfl hs
        | cons a as => rfl
      simp only [hcs, Bool.false_eq_true, if_false]
      exact ih

theorem splitTextRec_short (size ov : Nat) :
    ∀ (seps : List Str) (text : Str), text ≠ [] → text.length ≤ size →
      splitTextRec size ov seps text = [text] := by
  intro seps
  induction seps with
  | nil =>
    intro text h1 h2
    rw [splitTextRec]
    exact goPieces_single size ov _ false [] text h1 h2
  | cons s rest ih =>
    intro text h1 h2
    rw [splitTextRec]
    by_cases hs : s = []
    · rw [if_pos hs]
      exact goPieces_single size ov _ false [] text h1 h2
    · rw [if_neg hs]
      by_cases hc : containsSub s text = true
      · simp only [hc, if_true]
        exact goPieces_single size ov _ true s text h1 h2
      · simp only [Bool.not_eq_true] at hc
        simp only [hc, Bool.false_eq_true, if_false]
        exact ih text h1 h2

/-! The chunker on uniform separator-free text (the "A" * 1000 scenario). -/

theorem totalLen_replicate (n : Nat) (c : Char) :
    totalLen (List.replicate n [c]) = n := by
  induction n with
  | zero => rfl
  | succ n ih =>
    rw [List.replicate_succ, totalLen_cons, ih]
    simp only [List.length_cons, List.length_nil]
    omega

theorem flatten_replicate_singleton (n : Nat) (c : Char) :
    (List.replicate n [c]).flatten = List.replicate n c := by
  induction n with
  | zero => rfl
  | succ n ih => rw [List.replicate_succ, List.flatten_cons, ih, List.replicate_succ]; rfl

theorem shrinkTo_replicate (ov : Nat) (c : Char) :
    ∀ (j : Nat), ov ≤ j → shrinkTo ov (List.replicate j [c]) = List.replicate ov [c] := by
  intro j
  induction j with
  | zero =>
    intro h
    have : ov = 0 := Nat.le_zero.mp h
    subst this
    rfl
  | succ j ih =>
    intro h
    rw [List.replicate_succ, shrinkTo]
    rw [← List.replicate_succ, totalLen_replicate]
    by_cases hov : ov < j + 1
    · rw [if_pos hov]
      exact ih (by omega)
    · rw [if_neg hov]
      have : ov = j + 1 := by omega
      rw [this]

theorem containsSub_replicate (s0 : Char) (ss : Str) (c : Char) (n : Nat)
    (h : s0 ≠ c) : containsSub (s0 :: ss) (List.replicate n c) = false := by
  induction n with
  | zero => rfl
  | succ n ih =>
    rw [List.replicate_succ, containsSub]
    have hlw : leadsWith (s0 :: ss) (c :: List.replicate n c) = false := by
      simp [leadsWith, h]
    rw [hlw, Bool.false_or]
    exact ih

theorem mergeGo_replicate (size ov : Nat) (c : Char) (hov : ov < size) :
    ∀ (m : Nat) (j : Nat), j ≤ size → size < j + m →
      mergeGo size ov (List.replicate m [c]) (List.replicate j [c]) j =
        List.replicate size c ::
          mergeGo size ov (List.replicate (j + m - size - 1) [c])
            (List.replicate (ov + 1) [c]) (ov + 1) := by
  intro m
  induction m using Nat.strong_induction_on with
  | _ m ih =>
    intro j hj hsz
    cases m with
    | zero => exact absurd hsz (by omega)
    | succ m' =>
      rw [List.replicate_succ]
      by_cases hcase : size < j + 1
      · have hj' : j = size := by omega
        have hne : List.replicate j [c] ≠ [] := by
          intro h0
          have hL := congrArg List.length h0
          simp at hL
          omega
        rw [mergeGo,
          if_pos ⟨hne, by simp only [List.length_cons, List.length_nil]; omega⟩]
        simp only [flatten_replicate_singleton, shrinkTo_replicate ov c j (by omega),
          ← List.replicate_succ', totalLen_replicate]
        rw [hj']
        have hidx : size + (m' + 1) - size - 1 = m' := by omega
        rw [hidx]
      · have hne : ¬ (List.replicate j [c] ≠ [] ∧ size < j + List.length [c]) := by
          rintro ⟨-, h⟩
          simp at h
          omega
        rw [mergeGo, if_neg hne]
        rw [← List.replicate_succ']
        have hstep := ih m' (by omega) (j + 1) (by omega) (by omega)
        have hlen : j + List.length [c] = j + 1 := rfl
        rw [hlen, hstep]
        have hidx : j + 1 + m' - size - 1 = j + (m' + 1) - size - 1 := by omega
        rw [hidx]

theorem chunkText_repA :
    chunkText (VectorDB.init 500 50) (List.replicate 1000 'A') =
      [List.replicate 500 'A', List.replicate 500 'A', List.replicate 100 'A'] := by
  have hc1 : containsSub ['\n', '\n'] (List.replicate 1000 'A') = false :=
    containsSub_replicate _ _ _ _ (by decide)
  have hc2 : containsSub ['\n'] (List.replicate 1000 'A') = false :=
    containsSub_replicate _ _ _ _ (by decide)
  have hc3 : containsSub ['.'] (List.replicate 1000 'A') = false :=
    containsSub_replicate _ _ _ _ (by decide)
  have hc4 : containsSub [' '] (List.replicate 1000 'A') = false :=
    containsSub_replicate _ _ _ _ (by decide)
  dsimp only [chunkText, VectorDB.init, SEPS]
  rw [splitTextRec, if_neg (by decide)]
  simp only [hc1, Bool.false_eq_true, if_false]
  rw [splitTextRec, if_neg (by decide)]
  simp only [hc2, Bool.false_eq_true, if_false]
  rw [splitTextRec, if_neg (by decide)]
  simp only [hc3, Bool.false_eq_true, if_false]
  rw [splitTextRec, if_neg (by decide)]
  simp only [hc4, Bool.false_eq_true, if_false]
  rw [splitTextRec, if_pos rfl]
  rw [splitKeep, if_pos rfl, List.map_replicate]
  rw [List.filter_eq_self.mpr (by
    intro a ha
    rw [List.eq_of_mem_replicate ha]
    rfl)]
  rw [goPieces_allgood _ _ _ _ _ _ (by
    intro p hp
    rw [List.eq_of_mem_replicate hp]
    decide)]
  rw [List.nil_append]
  unfold mergeSplits
  have h1 := mergeGo_replicate 500 50 'A' (by decide) 1000 0 (by decide) (by decide)
  rw [List.replicate_zero] at h1
  norm_num at h1
  rw [h1]
  have h2 := mergeGo_replicate 500 50 'A' (by decide) 499 51 (by decide) (by decide)
  norm_num at h2
  rw [h2]
  have h3 := mergeGo_all 500 50 (List.replicate 49 ['A']) (List.replicate 51 ['A']) 51
    (by rw [totalLen_replicate]) (by rw [totalLen_replicate, totalLen_replicate]; decide)
    (by simp)
  rw [h3, ← List.replicate_add]
  norm_num

/-! Lemmas about the decimal representation used inside chunk ids. -/

theorem digitChar_ne_dash (d : Nat) : digitChar d ≠ '-' := by
  match d with
  | 0 => decide
  | 1 => decide
  | 2 => decide
  | 3 => decide
  | 4 => decide
  | 5 => decide
  | 6 => decide
  | 7 => decide
  | 8 => decide
  | n + 9 =>
    show '9' ≠ '-'
    decide

theorem digitVal_digitChar (d : Nat) (h : d < 10) : digitVal (digitChar d) = d := by
  interval_cases d <;> rfl

theorem decAux_ne_dash (n : Nat) : ∀ c ∈ decAux n, c ≠ '-' := by
  induction n using Nat.strong_induction_on with
  | _ n ih =>
    intro c hc
    rw [decAux] at hc
    by_cases h : n = 0
    · rw [if_pos h] at hc
      cases hc
    · rw [if_neg h] at hc
      rw [List.mem_append] at hc
      rcases hc with hc | hc
      · exact ih (n / 10) (Nat.div_lt_self (Nat.pos_of_ne_zero h) (by decide)) c hc
      · rw [List.mem_singleton] at hc
        subst hc
        exact digitChar_ne_dash (n % 10)

theorem decAux_zero : decAux 0 = [] := by
  rw [decAux, if_pos rfl]

theorem decAux_pos (n : Nat) (h : n ≠ 0) :
    decAux n = decAux (n / 10) ++ [digitChar (n % 10)] := by
  rw [decAux, if_neg h]

theorem decAux_eq_nil_iff (n : Nat) : decAux n = [] ↔ n = 0 := by
  constructor
  · intro h
    by_contra hn
    rw [decAux_pos n hn] at h
    exact absurd (congrArg List.length h) (by simp)
  · intro h
    subst h
    exact decAux_zero

theorem decAux_inj : ∀ (m n : Nat), decAux m = decAux n → m = n := by
  intro m
  induction m using Nat.strong_induction_on with
  | _ m ih =>
    intro n h
    by_cases hm : m = 0
    · subst hm
      rw [decAux_zero] at h
      exact ((decAux_eq_nil_iff n).mp h.symm).symm
    · by_cases hn : n = 0
      · subst hn
        rw [decAux_zero] at h
        exact absurd ((decAux_eq_nil_iff m).mp h) hm
      · rw [decAux_pos m hm, decAux_pos n hn] at h
        have hrev := congrArg List.reverse h
        simp only [List.reverse_append, List.reverse_cons, List.reverse_nil,
          List.nil_append, List.cons_append] at hrev
        injection hrev with h1 h2
        have hd : m % 10 = n % 10 := by
          have h3 := congrArg digitVal h1
          rwa [digitVal_digitChar _ (Nat.mod_lt _ (by decide)),
            digitVal_digitChar _ (Nat.mod_lt _ (by decide))] at h3
        have hq : m / 10 = n / 10 := by
          apply ih (m / 10) (Nat.div_lt_self (Nat.pos_of_ne_zero hm) (by decide))
          have h4 := congrArg List.reverse h2
          simpa using h4
        omega

theorem decAux_ne_zero_single (n : Nat) (hn : n ≠ 0) : decAux n ≠ ['0'] := by
  intro h
  rw [decAux_pos n hn] at h
  have hnil : decAux (n / 10) = [] := by
    cases hx : decAux (n / 10) with
    | nil => rfl
    | cons a t =>
      rw [hx] at h
      have hL := congrArg List.length h
      simp at hL
  have hq : n / 10 = 0 := (decAux_eq_nil_iff _).mp hnil
  rw [hnil, List.nil_append] at h
  injection h with h1 _
  have h2 := congrArg digitVal h1
  rw [digitVal_digitChar _ (Nat.mod_lt _ (by decide))] at h2
  have h3 : n % 10 = 0 := by rw [h2]; rfl
  omega

theorem decChars_ne_dash (n : Nat) : ∀ c ∈ decChars n, c ≠ '-' := by
  intro c hc
  unfold decChars at hc
  by_cases h : n = 0
  · rw [if_pos h, List.mem_singleton] at hc
    subst hc
    decide
  · rw [if_neg h] at hc
    exact decAux_ne_dash n c hc

theorem decChars_inj (m n : Nat) (h : decChars m = decChars n) : m = n := by
  unfold decChars at h
  by_cases hm : m = 0
  · by_cases hn : n = 0
    · omega
    · rw [if_pos hm, if_neg hn] at h
      exact absurd h.symm (decAux_ne_zero_single n hn)
  · by_cases hn : n = 0
    · rw [if_neg hm, if_pos hn] at h
      exact absurd h (decAux_ne_zero_single m hm)
    · rw [if_neg hm, if_neg hn] at h
      exact decAux_inj m n h

/-! Parsing the dash-separated id format. -/

theorem dashSplit :
    ∀ (xs ys xs' ys' : Str), (∀ c ∈ xs, c ≠ '-') → (∀ c ∈ ys, c ≠ '-') →
      xs ++ '-' :: xs' = ys ++ '-' :: ys' → xs = ys ∧ xs' = ys' := by
  intro xs
  induction xs with
  | nil =>
    intro ys xs' ys' _ hys h
    cases ys with
    | nil =>
      simp only [List.nil_append] at h
      exact ⟨rfl, by injection h⟩
    | cons y t =>
      simp only [List.nil_append, List.cons_append] at h
      injection h with h1 _
      exact absurd h1.symm (hys y (List.mem_cons_self y t))
  | cons x t ih =>
    intro ys xs' ys' hxs hys h
    cases ys with
    | nil =>
      simp only [List.nil_append, List.cons_append] at h
      injection h with h1 _
      exact absurd h1 (hxs x (List.mem_cons_self x t))
    | cons y u =>
      simp only [List.cons_append] at h
      injection h with h1 h2
      have := ih u xs' ys' (fun c hc => hxs c (List.mem_cons_of_mem x hc))
        (fun c hc => hys c (List.mem_cons_of_mem y hc)) h2
      exact ⟨by rw [h1, this.1], this.2⟩

theorem rev_seg (a b : Str) :
    (a ++ '-' :: b).reverse = b.reverse ++ '-' :: a.reverse := by
  simp

theorem mkId_inj (md5hex : Str → Str) (f f' : Str) (i i' : Nat) (c c' : Str)
    (hd : ∀ x ∈ md5hex c, x ≠ '-') (hd' : ∀ x ∈ md5hex c', x ≠ '-')
    (h : mkId md5hex f i c = mkId md5hex f' i' c') :
    f = f' ∧ i = i' ∧ c.length = c'.length ∧ md5hex c = md5hex c' := by
  unfold mkId at h
  have hrev := congrArg List.reverse h
  rw [rev_seg, rev_seg (decChars i), rev_seg (decChars c.length)] at hrev
  rw [rev_seg, rev_seg (decChars i'), rev_seg (decChars c'.length)] at hrev
  simp only [List.append_assoc, List.cons_append] at hrev
  have s1 := dashSplit _ _ _ _
    (fun x hx => hd x (List.mem_reverse.mp hx))
    (fun x hx => hd' x (List.mem_reverse.mp hx)) hrev
  have s2 := dashSplit _ _ _ _
    (fun x hx => decChars_ne_dash _ x (List.mem_reverse.mp hx))
    (fun x hx => decChars_ne_dash _ x (List.mem_reverse.mp hx)) s1.2
  have s3 := dashSplit _ _ _ _
    (fun x hx => decChars_ne_dash _ x (List.mem_reverse.mp hx))
    (fun x hx => decChars_ne_dash _ x (List.mem_reverse.mp hx)) s2.2
  refine ⟨?_, ?_, ?_, ?_⟩
  · exact List.reverse_injective s3.2
  · exact decChars_inj _ _ (List.reverse_injective s3.1)
  · exact decChars_inj _ _ (List.reverse_injective s2.1)
  · exact List.reverse_injective s1.1

/-! Lemmas about the upsert semantics of the index. -/

theorem ids_upsertOne_of_mem (col : Collection) (r : Entry)
    (h : r.id ∈ ids col) : ids (upsertOne col r) = ids col := by
  unfold upsertOne
  rw [if_pos h]
  unfold ids
  rw [List.map_map]
  apply List.map_congr_left
  intro e _
  by_cases he : e.id = r.id
  · simp [he]
  · simp [he]

theorem ids_upsertOne_of_not_mem (col : Collection) (r : Entry)
    (h : r.id ∉ ids col) : ids (upsertOne col r) = ids col ++ [r.id] := by
  unfold upsertOne
  rw [if_neg h]
  unfold ids
  simp

theorem mem_ids_upsertOne (col : Collection) (r : Entry) :
    r.id ∈ ids (upsertOne col r) := by
  by_cases h : r.id ∈ ids col
  · rw [ids_upsertOne_of_mem col r h]; exact h
  · rw [ids_upsertOne_of_not_mem col r h]; simp

theorem mem_ids_upsertOne_mono (col : Collection) (r : Entry) (x : Str)
    (h : x ∈ ids col) : x ∈ ids (upsertOne col r) := by
  by_cases hm : r.id ∈ ids col
  · rwa [ids_upsertOne_of_mem col r hm]
  · rw [ids_upsertOne_of_not_mem col r hm]; exact List.mem_append_left _ h

theorem mem_ids_upsertBatch_mono (recs : List Entry) :
    ∀ (col : Collection) (x : Str), x ∈ ids col → x ∈ ids (upsertBatch col recs) := by
  induction recs with
  | nil => intro col x h; exact h
  | cons r rs ih =>
    intro col x h
    exact ih (upsertOne col r) x (mem_ids_upsertOne_mono col r x h)

theorem mem_ids_upsertBatch (recs : List Entry) :
    ∀ (col : Collection) (r : Entry), r ∈ recs → r.id ∈ ids (upsertBatch col recs) := by
  induction recs with
  | nil => intro col r h; cases h
  | cons q rs ih =>
    intro col r h
    rw [List.mem_cons] at h
    rcases h with h | h
    · subst h
      exact mem_ids_upsertBatch_mono rs (upsertOne col r) r.id (mem_ids_upsertOne col r)
    · exact ih (upsertOne col q) r h

theorem ids_upsertBatch_of_mem (recs : List Entry) :
    ∀ (col : Collection), (∀ r ∈ recs, r.id ∈ ids col) →
      ids (upsertBatch col recs) = ids col := by
  induction recs with
  | nil => intro col _; rfl
  | cons r rs ih =>
    intro col hall
    have h1 : ids (upsertOne col r) = ids col :=
      ids_upsertOne_of_mem col r (hall r (List.mem_cons_self r rs))
    have h2 := ih (upsertOne col r) (by
      intro q hq
      rw [h1]
      exact hall q (List.mem_cons_of_mem r hq))
    unfold upsertBatch at h2 ⊢
    rw [List.foldl_cons, h2, h1]

theorem ids_upsertBatch_idem (col : Collection) (recs : List Entry) :
    ids (upsertBatch (upsertBatch col recs) recs) = ids (upsertBatch col recs) :=
  ids_upsertBatch_of_mem recs (upsertBatch col recs)
    (fun r hr => mem_ids_upsertBatch recs col r hr)

/-- Re-ingesting any batch of documents leaves the id list of the observed
index state unchanged. -/
theorem addState_reingest_ids (db : VectorDB) (md5hex : Str → Str)
    (col : Collection) (docs : List Doc) :
    ids (addState db md5hex (addState db md5hex col docs) docs) =
      ids (addState db md5hex col docs) := by
  unfold addState add_documents
  cases hc : collectRecords db md5hex docs with
  | error e => rfl
  | ok recs =>
    by_cases hr : recs = []
    · simp [hr]
    · simp only [if_neg hr]
      exact ids_upsertBatch_idem col recs

/-! Lemmas about the record-building loop. -/

theorem collectRecords_err (db : VectorDB) (md5hex : Str → Str) :
    ∀ (docs : List Doc), (∃ d ∈ docs, d.content = none) →
      collectRecords db md5hex docs = Except.error () := by
  intro docs
  induction docs with
  | nil => rintro ⟨d, hd, -⟩; cases hd
  | cons d ds ih =>
    rintro ⟨q, hq, hnone⟩
    rw [List.mem_cons] at hq
    rcases hq with hq | hq
    · subst hq
      rw [collectRecords]
      unfold docRecords
      rw [hnone]
    · rw [collectRecords]
      cases hd : docRecords db md5hex d with
      | error e => rfl
      | ok rs => rw [ih ⟨q, hq, hnone⟩]

theorem docRecords_of_no_chunks (db : VectorDB) (md5hex : Str → Str) (d : Doc)
    (t : Str) (hc : d.content = some t) (hch : chunkText db t = []) :
    docRecords db md5hex d = Except.ok [] := by
  unfold docRecords
  rw [hc]
  dsimp only
  rw [hch]
  rfl

theorem collectRecords_skip (db : VectorDB) (md5hex : Str → Str) (d : Doc)
    (t : Str) (hc : d.content = some t) (hch : chunkText db t = []) :
    ∀ (pre post : List Doc),
      collectRecords db md5hex (pre ++ d :: post) =
        collectRecords db md5hex (pre ++ post) := by
  intro pre
  induction pre with
  | nil =>
    intro post
    simp only [List.nil_append]
    rw [collectRecords, docRecords_of_no_chunks db md5hex d t hc hch]
    cases hr : collectRecords db md5hex post with
    | error e => rfl
    | ok rest => rfl
  | cons p ps ih =>
    intro post
    simp only [List.cons_append]
    rw [collectRecords, collectRecords]
    rw [ih post]

theorem collectRecords_all_empty (db : VectorDB) (md5hex : Str → Str) :
    ∀ (docs : List Doc),
      (∀ d ∈ docs, ∃ t, d.content = some t ∧ chunkText db t = []) →
      collectRecords db md5hex docs = Except.ok [] := by
  intro docs
  induction docs with
  | nil => intro _; rfl
  | cons d ds ih =>
    intro hall
    obtain ⟨t, hc, hch⟩ := hall d (List.mem_cons_self d ds)
    rw [collectRecords, docRecords_of_no_chunks db md5hex d t hc hch,
      ih (fun q hq => hall q (List.mem_cons_of_mem d hq))]
    rfl

/-! Claim theorems. -/

/-- C3: chunk_text returns the empty sequence on empty input, and exactly one
chunk equal to the input for every nonempty text of length at most chunk_size
(the nonempty reading of the first clause is forced by the empty-input
clause). -/
theorem c3_chunk_short_text (db : VectorDB) :
    chunkText db [] = [] ∧
      ∀ text : Str, text ≠ [] → text.length ≤ db.chunk_size →
        chunkText db text = [text] := by
  constructor
  · exact splitTextRec_empty db.chunk_size db.chunk_overlap SEPS
  · intro text h1 h2
    exact splitTextRec_short db.chunk_size db.chunk_overlap SEPS text h1 h2

/-- Witness for C3 at a concrete configuration and text. -/
theorem c3_chunk_short_text_witness :
    chunkText (VectorDB.init 5 3) [] = [] ∧
      chunkText (VectorDB.init 5 3) ['a', 'b'] = [['a', 'b']] :=
  ⟨(c3_chunk_short_text (VectorDB.init 5 3)).1,
    (c3_chunk_short_text (VectorDB.init 5 3)).2 ['a', 'b'] (by decide) (by decide)⟩

/-- C1: ingesting the same document twice leaves the observed index state
with the same id list (hence the same id set) and the same record count as
ingesting it once — upsert replaces records by id instead of duplicating. -/
theorem c1_reingest_idempotent (db : VectorDB) (md5hex : Str → Str)
    (col : Collection) (D : Doc) :
    ids (addState db md5hex (addState db md5hex col [D]) [D]) =
      ids (addState db md5hex col [D]) ∧
    (addState db md5hex (addState db md5hex col [D]) [D]).length =
      (addState db md5hex col [D]).length := by
  have h := addState_reingest_ids db md5hex col [D]
  refine ⟨h, ?_⟩
  have h1 : ∀ c : Collection, c.length = (ids c).length := by
    intro c
    unfold ids
    rw [List.length_map]
  rw [h1, h1 (addState db md5hex col [D]), h]

/-- C2: the chunk id is a deterministic function of exactly (source filename,
chunk ordinal, chunk length, content hash); and, provided the hash output is
dash-free and collision-free on the two chunks concerned (the idealisation
the spec makes for hashlib.md5, which is external and enters as the abstract
md5hex), two chunks receive the same id only if they agree in content,
position and length.  Two runs over the same input trivially produce the
same ids because the derivation is pure. -/
theorem c2_id_deterministic_and_injective (md5hex : Str → Str) (f f' : Str)
    (i i' : Nat) (c c' : Str)
    (hd : ∀ x ∈ md5hex c, x ≠ '-') (hd' : ∀ x ∈ md5hex c', x ≠ '-')
    (hcoll : md5hex c = md5hex c' → c = c') :
    (f = f' → i = i' → c.length = c'.length → md5hex c = md5hex c' →
        mkId md5hex f i c = mkId md5hex f' i' c') ∧
    (mkId md5hex f i c = mkId md5hex f' i' c' →
        f = f' ∧ i = i' ∧ c.length = c'.length ∧ c = c') := by
  constructor
  · intro h1 h2 h3 h4
    unfold mkId
    rw [h1, h2, h3, h4]
  · intro h
    obtain ⟨hf, hi, hl, hh⟩ := mkId_inj md5hex f f' i i' c c' hd hd' h
    exact ⟨hf, hi, hl, hcoll hh⟩

/-- Witness for C2: the identity function is a dash-free, collision-free
hash for the concrete chunk used here. -/
theorem c2_id_deterministic_and_injective_witness :
    (['x'] : Str) = ['x'] ∧ (0 : Nat) = 0 ∧
      (['a'] : Str).length = (['a'] : Str).length ∧ (['a'] : Str) = ['a'] :=
  (c2_id_deterministic_and_injective (fun s => s) ['x'] ['x'] 0 0 ['a'] ['a']
    (by decide) (by decide) (fun h => h)).2 rfl

/-- C4: ingesting one document with content "A" * 1000 under chunk_size 500
and chunk_overlap 50 produces exactly three chunks of lengths 500, 500 and
100 (the remainder, with overlaps), the records carry the deterministic ids
of ordinals 0, 1, 2, and re-ingesting the document leaves the id list of the
index unchanged. -/
theorem c4_example_scenario (md5hex : Str → Str) :
    chunkText (VectorDB.init 500 50) (List.replicate 1000 'A') =
      [List.replicate 500 'A', List.replicate 500 'A', List.replicate 100 'A'] ∧
    docRecords (VectorDB.init 500 50) md5hex sampleDoc =
      Except.ok
        [⟨mkId md5hex xFile 0 (List.replicate 500 'A'), List.replicate 500 'A',
            sampleDoc.metadata⟩,
         ⟨mkId md5hex xFile 1 (List.replicate 500 'A'), List.replicate 500 'A',
            sampleDoc.metadata⟩,
         ⟨mkId md5hex xFile 2 (List.replicate 100 'A'), List.replicate 100 'A',
            sampleDoc.metadata⟩] ∧
    ids (addState (VectorDB.init 500 50) md5hex
        (addState (VectorDB.init 500 50) md5hex [] [sampleDoc]) [sampleDoc]) =
      ids (addState (VectorDB.init 500 50) md5hex [] [sampleDoc]) := by
  refine ⟨chunkText_repA, ?_, addState_reingest_ids _ _ _ _⟩
  unfold docRecords sampleDoc
  dsimp only
  rw [chunkText_repA]
  rfl

/-- Counterexample to C5: constructing the engine with chunk_overlap 20 and
chunk_size 10 succeeds, and both values are stored exactly as given — nothing
is rejected or clipped at construction time. -/
theorem c5_counterexample :
    (VectorDB.init 10 20).chunk_size = 10 ∧
    (VectorDB.init 10 20).chunk_overlap = 20 ∧
    (VectorDB.init 10 20).chunk_size ≤ (VectorDB.init 10 20).chunk_overlap :=
  ⟨rfl, rfl, by decide⟩

/-- C5 amended: the constructor performs no validation — chunk_size and
chunk_overlap are stored exactly as given even when overlap ≥ size,
construction always succeeds, and chunking still operates on the stored
configuration. -/
theorem c5_init_stores_unvalidated (s o : Nat) (text : Str) :
    (VectorDB.init s o).chunk_size = s ∧
    (VectorDB.init s o).chunk_overlap = o ∧
    (text ≠ [] → text.length ≤ s → chunkText (VectorDB.init s o) text = [text]) :=
  ⟨rfl, rfl, fun h1 h2 => splitTextRec_short s o SEPS text h1 h2⟩

/-- Witness for the amended C5 at the counterexample configuration. -/
theorem c5_init_stores_unvalidated_witness :
    (VectorDB.init 10 20).chunk_size = 10 ∧
    (VectorDB.init 10 20).chunk_overlap = 20 ∧
    chunkText (VectorDB.init 10 20) ['h', 'i'] = [['h', 'i']] := by
  have h := c5_init_stores_unvalidated 10 20 ['h', 'i']
  exact ⟨h.1, h.2.1, h.2.2 (by decide) (by decide)⟩

/-- C6: for a positive requested count, search returns at most n_results
records, at most as many as the index holds, and its distances are
non-decreasing (ascending, most similar first). -/
theorem c6_search_bounded_sorted (dist : Str → Str → Rat) (col : Collection)
    (q : Str) (n : Nat) (hn : 0 < n) :
    (search dist col q n).ids.length ≤ n ∧
    (search dist col q n).ids.length ≤ col.length ∧
    List.Sorted (fun a b : Rat => a ≤ b) (search dist col q n).distances := by
  have hlen : (search dist col q n).ids.length = min n col.length := by
    unfold search backendQuery
    dsimp only
    rw [List.length_map, List.length_take, List.length_insertionSort]
  refine ⟨?_, ?_, ?_⟩
  · rw [hlen]; exact Nat.min_le_left _ _
  · rw [hlen]; exact Nat.min_le_right _ _
  · unfold search backendQuery
    dsimp only
    have hs : List.Sorted (entryLE dist q) (List.insertionSort (entryLE dist q) col) :=
      List.sorted_insertionSort (entryLE dist q) col
    have ht : List.Sorted (entryLE dist q)
        ((List.insertionSort (entryLE dist q) col).take n) :=
      List.Pairwise.sublist (List.take_sublist n _) hs
    exact List.pairwise_map.mpr ht

/-- Witness for C6 on a one-record index. -/
theorem c6_search_bounded_sorted_witness :
    (search sampleDist [sampleEntry] ['q'] 1).ids.length ≤ 1 ∧
    (search sampleDist [sampleEntry] ['q'] 1).ids.length ≤
      ([sampleEntry] : Collection).length ∧
    List.Sorted (fun a b : Rat => a ≤ b)
      (search sampleDist [sampleEntry] ['q'] 1).distances :=
  c6_search_bounded_sorted sampleDist [sampleEntry] ['q'] 1 (by decide)

/-- C7: search on the empty index returns the empty result (not an error),
and when the index holds fewer than n_results records it returns exactly the
existing records (a permutation of the index), never padding. -/
theorem c7_search_small_index (dist : Str → Str → Rat) (q : Str) (n : Nat) :
    ((search dist [] q n).documents = [] ∧ (search dist [] q n).metadatas = [] ∧
      (search dist [] q n).distances = [] ∧ (search dist [] q n).ids = []) ∧
    ∀ col : Collection, col.length < n →
      (search dist col q n).ids.Perm (ids col) := by
  have h0 : backendQuery dist [] q n = [] := by
    unfold backendQuery
    rw [show List.insertionSort (entryLE dist q) ([] : Collection) = [] from rfl]
    exact List.take_nil
  constructor
  · refine ⟨?_, ?_, ?_, ?_⟩ <;> (unfold search; dsimp only; rw [h0]; rfl)
  · intro col hlt
    unfold search backendQuery ids
    dsimp only
    rw [List.take_of_length_le (by rw [List.length_insertionSort]; omega)]
    exact (List.perm_insertionSort (entryLE dist q) col).map (fun e => e.id)

/-- Witness for C7: the empty index and a one-record index queried for two
results. -/
theorem c7_search_small_index_witness :
    (search sampleDist [] ['q'] 2).ids = [] ∧
    (search sampleDist [sampleEntry] ['q'] 2).ids.Perm (ids [sampleEntry]) :=
  ⟨(c7_search_small_index sampleDist ['q'] 2).1.2.2.2,
    (c7_search_small_index sampleDist ['q'] 2).2 [sampleEntry] (by decide)⟩

/-- Counterexample to C8: the empty query is not rejected — search runs the
normal embedding-and-query path and returns an ordinary result on a nonempty
index, so the empty query does reach the embedding function and no QueryError
exists in the code. -/
theorem c8_counterexample :
    (search sampleDist [sampleEntry] [] 5).ids = [['i', '1']] ∧
    (search sampleDist [sampleEntry] [] 5).documents = [['d', 'o', 'c']] :=
  ⟨rfl, rfl⟩

/-- C8 amended: search performs no validation of the query text — an empty
query is embedded and searched exactly like any other query, returning
min n_results count records. -/
theorem c8_empty_query_processed (dist : Str → Str → Rat) (col : Collection)
    (n : Nat) :
    (search dist col [] n).ids.length = min n col.length ∧
    (search dist col [] n).documents.length = min n col.length := by
  constructor <;>
    (unfold search backendQuery
     dsimp only
     rw [List.length_map, List.length_take, List.length_insertionSort])

/-- Counterexample to C9: in a batch whose first document lacks the content
key, Python raises KeyError while building the records, nothing is written,
and the well-formed second document is not indexed — the whole batch is
dropped instead of skipping only the malformed document. -/
theorem c9_counterexample :
    add_documents (VectorDB.init 500 50) (fun s => s) []
        [⟨none, []⟩, ⟨some ['h', 'i'], []⟩] = Except.error () ∧
    addState (VectorDB.init 500 50) (fun s => s) []
        [⟨none, []⟩, ⟨some ['h', 'i'], []⟩] = [] :=
  ⟨rfl, rfl⟩

/-- C9 amended: a document with a missing content key aborts the whole call
with an error (nothing is indexed, wherever the document sits in the batch);
a document whose content chunks to the empty sequence is skipped silently —
the rest of the batch is indexed exactly as if the document were absent, and
no report of the skip is produced. -/
theorem c9_error_propagation (db : VectorDB) (md5hex : Str → Str)
    (col : Collection) :
    (∀ docs : List Doc, (∃ d ∈ docs, d.content = none) →
        add_documents db md5hex col docs = Except.error ()) ∧
    (∀ (pre post : List Doc) (d : Doc) (t : Str),
        d.content = some t → chunkText db t = [] →
        add_documents db md5hex col (pre ++ d :: post) =
          add_documents db md5hex col (pre ++ post)) := by
  constructor
  · intro docs hex
    unfold add_documents
    rw [collectRecords_err db md5hex docs hex]
  · intro pre post d t hc hch
    unfold add_documents
    rw [collectRecords_skip db md5hex d t hc hch pre post]

/-- Witness for the amended C9: a missing-content document errors the call;
a chunkless document is dropped with no other effect. -/
theorem c9_error_propagation_witness :
    add_documents (VectorDB.init 500 50) (fun s => s) [] [⟨none, []⟩] =
      Except.error () ∧
    add_documents (VectorDB.init 500 50) (fun s => s) [] [⟨some [], []⟩] =
      add_documents (VectorDB.init 500 50) (fun s => s) [] [] := by
  constructor
  · exact (c9_error_propagation (VectorDB.init 500 50) (fun s => s) []).1
      [⟨none, []⟩] ⟨⟨none, []⟩, List.mem_singleton_self _, rfl⟩
  · have h := (c9_error_propagation (VectorDB.init 500 50) (fun s => s) []).2
      [] [] ⟨some [], []⟩ [] rfl (splitTextRec_empty 500 50 SEPS)
    simpa using h

/-- C10: add_documents with an empty batch, or with documents all of whose
contents chunk to the empty sequence, issues no write at all: the call
returns with the index state unchanged. -/
theorem c10_no_chunks_no_write (db : VectorDB) (md5hex : Str → Str)
    (col : Collection) (docs : List Doc)
    (h : docs = [] ∨ ∀ d ∈ docs, ∃ t, d.content = some t ∧ chunkText db t = []) :
    add_documents db md5hex col docs = Except.ok col := by
  have hcr : collectRecords db md5hex docs = Except.ok [] := by
    rcases h with h | h
    · subst h
      rfl
    · exact collectRecords_all_empty db md5hex docs h
  unfold add_documents
  rw [hcr]
  rfl

/-- Witness for C10: the empty batch and a batch of one empty-content
document, over a nonempty index. -/
theorem c10_no_chunks_no_write_witness :
    add_documents (VectorDB.init 500 50) (fun s => s) [sampleEntry] [] =
      Except.ok [sampleEntry] ∧
    add_documents (VectorDB.init 500 50) (fun s => s) [sampleEntry]
        [⟨some [], []⟩] = Except.ok [sampleEntry] := by
  constructor
  · exact c10_no_chunks_no_write _ _ _ _ (Or.inl rfl)
  · refine c10_no_chunks_no_write _ _ _ _ (Or.inr ?_)
    intro d hd
    rw [List.mem_singleton] at hd
    subst hd
    exact ⟨[], rfl, splitTextRec_empty 500 50 SEPS⟩
